import Mathlib

/-!
Verification of the playback/highlighting sequencer.

A shallow embedding, over `List Char`, of the text-chunking and
playback/highlighting code of the language-learning application
(`splitTextIntoChunks`, `speakThaiWithHighlighting`, `playbackCycle`),
together with proofs of the specified properties.

Strings are modelled as `List Char`; the asynchronous playback code is
modelled as a function producing the list of observable events (synthesis
requests, highlight re-scans, fallback invocation) and the final highlight
state of the displayed word spans, parameterised by the per-chunk playback
outcome chosen by the environment.
-/

namespace Lang

/-- A JS string, modelled as its list of characters;
`String.prototype.length` is the list length. -/
abbrev JStr := List Char

/-- The whitespace class of the source's regular expressions (`\s`),
restricted to the core whitespace characters. -/
def isWs (c : Char) : Bool := c = ' ' || c = '\t' || c = '\n' || c = '\r'

/-- The single-pass scanner behind `splitWs`.  `acc` holds the characters
of the token being read, reversed; `inWs` records whether the scanner is
inside a whitespace run (a token boundary has just been emitted). -/
def splitWsGo : JStr → JStr → Bool → List JStr
  | [], acc, inWs => if inWs then [[]] else [acc.reverse]
  | c :: cs, acc, inWs =>
    if isWs c then
      if inWs then splitWsGo cs [] true
      else acc.reverse :: splitWsGo cs [] true
    else
      if inWs then splitWsGo cs [c] false
      else splitWsGo cs (c :: acc) false

/-- JS `text.split(/\s+/)`: the substrings between maximal whitespace
runs.  A leading (resp. trailing) whitespace run contributes an empty
first (resp. last) element, exactly as in JS; `"".split(/\s+/) = [""]`. -/
def splitWs (s : JStr) : List JStr := splitWsGo s [] false

/-- Run-structured view of `splitWs`: a whitespace head-run yields an
empty token and recursion past the run; a non-whitespace head extends the
first token.  Equivalent to `splitWs` (`splitWs_eq_runs`); used for
reasoning, while `splitWs` itself computes by structural recursion. -/
def splitWsRuns : JStr → List JStr
  | [] => [[]]
  | c :: cs =>
    if isWs c then [] :: splitWsRuns (cs.dropWhile isWs)
    else
      match splitWsRuns cs with
      | [] => [[c]]
      | t :: ts => (c :: t) :: ts
termination_by s => s.length
decreasing_by
  · exact Nat.lt_succ_of_le (List.dropWhile_suffix isWs).sublist.length_le
  · exact Nat.lt_succ_self cs.length

/-- Removal of trailing whitespace: the second pass of JS `trim`. -/
def rtrimWs (s : JStr) : JStr := (s.reverse.dropWhile isWs).reverse

/-- JS `String.prototype.trim`: remove leading and trailing whitespace. -/
def trim (s : JStr) : JStr := rtrimWs (s.dropWhile isWs)

/-- One iteration of the word loop of `splitTextIntoChunks`; the state is
the pair (chunks pushed so far, currentChunk). -/
def chunkStep (maxLength : Nat) (st : List JStr × JStr) (word : JStr) : List JStr × JStr :=
  let chunks := st.1
  let currentChunk := st.2
  if maxLength < (currentChunk ++ ' ' :: word).length ∧ currentChunk ≠ [] then
    (chunks ++ [trim currentChunk], word)
  else
    (chunks, if currentChunk ≠ [] then currentChunk ++ ' ' :: word else word)

/-- The source's `splitTextIntoChunks(text, maxLength)`: texts no longer
than `maxLength` are returned unchanged as a one-element list; otherwise the
whitespace-delimited words are greedily accumulated, a running chunk being
closed (trimmed) whenever appending the next word would exceed `maxLength`,
and the final non-empty running chunk is appended after the loop. -/
def splitTextIntoChunks (text : JStr) (maxLength : Nat) : List JStr :=
  if text.length ≤ maxLength then [text]
  else
    let words := splitWs text
    let st := words.foldl (chunkStep maxLength) ([], [])
    if st.2 ≠ [] then st.1 ++ [trim st.2] else st.1

/-- The word loop of `splitTextIntoChunks` in direct-recursion form
(identical output, proved in `splitTextIntoChunks_eq_chunkLoop`). -/
def chunkLoop (maxLength : Nat) : List JStr → JStr → List JStr
  | [], currentChunk => if currentChunk ≠ [] then [trim currentChunk] else []
  | w :: ws, currentChunk =>
    if maxLength < (currentChunk ++ ' ' :: w).length ∧ currentChunk ≠ [] then
      trim currentChunk :: chunkLoop maxLength ws w
    else
      chunkLoop maxLength ws (if currentChunk ≠ [] then currentChunk ++ ' ' :: w else w)

/-- Single-pass scanner behind `collapseWs`: emit one `' '` at the first
character of each whitespace run, skip the run's remaining characters. -/
def collapseGo : JStr → Bool → JStr
  | [], _ => []
  | c :: cs, inWs =>
    if isWs c then
      if inWs then collapseGo cs true else ' ' :: collapseGo cs true
    else c :: collapseGo cs false

/-- Every maximal whitespace run of `s` replaced by a single space
(the first half of the whitespace normalization named by the spec). -/
def collapseWs (s : JStr) : JStr := collapseGo s false

/-- Run-structured view of `collapseWs`, equivalent to it
(`collapseWs_eq_runs`); used for reasoning. -/
def collapseRuns : JStr → JStr
  | [] => []
  | c :: cs =>
    if isWs c then ' ' :: collapseRuns (cs.dropWhile isWs)
    else c :: collapseRuns cs
termination_by s => s.length
decreasing_by
  · exact Nat.lt_succ_of_le (List.dropWhile_suffix isWs).sublist.length_le
  · exact Nat.lt_succ_self cs.length

/-- Whitespace normalization as worded in the spec: every maximal
whitespace run replaced by a single space, then leading and trailing
whitespace removed. -/
def normalizeWs (s : JStr) : JStr := trim (collapseWs s)

/-- Joining a sequence of strings with single separating spaces. -/
def joinSp : List JStr → JStr
  | [] => []
  | [chunk] => chunk
  | chunk :: rest => chunk ++ ' ' :: joinSp rest

/-- The non-empty whitespace-delimited tokens of `s`. -/
def wsTokens (s : JStr) : List JStr := (splitWs s).filter (fun w => w ≠ [])

/-- No element of `ws` other than possibly the last one is empty. -/
def MidOK (ws : List JStr) : Prop := ∀ w ∈ ws.dropLast, w ≠ []

/-- No element of `ws` other than possibly the first and the last one is
empty: the shape of `splitWs` output. -/
def StartOK (ws : List JStr) : Prop :=
  MidOK ws ∨ ∃ ws', ws = [] :: ws' ∧ MidOK ws'

/-- How the playback of one chunk's synthesized audio can end: normally
(`onended` after `onplay`), with a playback error after playback started
(`onerror` after `onplay`), or with the play request rejected before any
playback (`play()` rejection, no `onplay`). -/
inductive ChunkOutcome
  | ok
  | errAfterPlay
  | errBeforePlay
deriving DecidableEq, Repr

/-- The observable events of `speakThaiWithHighlighting`: a synthesis
request to the TTS endpoint for a chunk's text, the full highlight
re-scan run by a chunk's `onplay` handler (recording the scanned range and
the resulting highlight states), and an invocation of the fallback
speaker. -/
inductive SpeakEvent
  | synthRequest (chunkText : JStr)
  | setHighlights (wordStartIndex chunkWordsLen : Nat) (hl : List Bool)
  | fallbackSpeak (text : JStr)
deriving DecidableEq, Repr

/-- The quantity `chunk.split(/\s+/).length`: the word count the source uses both for a
chunk's highlight range length and for the running start index. -/
def wordCount (chunk : JStr) : Nat := (splitWs chunk).length

/-- The `onplay` handler's full re-scan: the word span at position `index`
is highlighted exactly when `wordStartIndex ≤ index < wordStartIndex +
chunkWordsLen`, every other span is un-highlighted. -/
def rescanHighlights (hl : List Bool) (wordStartIndex chunkWordsLen : Nat) : List Bool :=
  hl.mapIdx fun index _ =>
    decide (wordStartIndex ≤ index ∧ index < wordStartIndex + chunkWordsLen)

/-- The sentinel text stored by `translateToThai` when translation fails. -/
def translationFailed : JStr := "Translation failed".toList

/-- The running word-start index the source computes for chunk
`chunkIndex`: the sum of `chunks[i].split(/\s+/).length` over all
preceding chunks `i < chunkIndex`. -/
def startSum (chunks : List JStr) (chunkIndex : Nat) : Nat :=
  ((chunks.take chunkIndex).map wordCount).sum

/-- Is this event a fallback-speaker invocation? -/
def isFallbackEvent : SpeakEvent → Bool
  | .fallbackSpeak _ => true
  | _ => false

/-- Is this event a synthesis request? -/
def isSynthEvent : SpeakEvent → Bool
  | .synthRequest _ => true
  | _ => false

/-- The `playNextChunk` loop of `speakThaiWithHighlighting`.  `rest` is
`chunks.drop chunkIndex`; the environment's `outcomes` decides each
chunk's playback outcome.  On exhaustion all highlighting is removed and
the promise resolves; on a chunk error the fallback speaker is invoked on
the full `thai` text and the promise resolves with the highlight state
untouched. -/
def playFrom (thai : JStr) (chunks : List JStr) (outcomes : Nat → ChunkOutcome) :
    List JStr → Nat → List Bool → List SpeakEvent × List Bool
  | [], _, hl => ([], hl.map fun _ => false)
  | chunk :: rest, chunkIndex, hl =>
    let wordStartIndex := startSum chunks chunkIndex
    let chunkWordsLen := wordCount chunk
    match outcomes chunkIndex with
    | .ok =>
      let hl' := rescanHighlights hl wordStartIndex chunkWordsLen
      let r := playFrom thai chunks outcomes rest (chunkIndex + 1) hl'
      (.synthRequest chunk :: .setHighlights wordStartIndex chunkWordsLen hl' :: r.1, r.2)
    | .errAfterPlay =>
      let hl' := rescanHighlights hl wordStartIndex chunkWordsLen
      ([.synthRequest chunk, .setHighlights wordStartIndex chunkWordsLen hl',
        .fallbackSpeak thai], hl')
    | .errBeforePlay =>
      ([.synthRequest chunk, .fallbackSpeak thai], hl)

/-- The source's `speakThaiWithHighlighting`: empty or untranslatable
text resolves immediately; otherwise the text is chunked with maximum
length 200 and the chunks are played sequentially by `playFrom`. -/
def speakThaiWithHighlighting (currentThai : JStr) (hl : List Bool)
    (outcomes : Nat → ChunkOutcome) : List SpeakEvent × List Bool :=
  if currentThai = [] ∨ currentThai = translationFailed then ([], hl)
  else
    let chunks := splitTextIntoChunks currentThai 200
    playFrom currentThai chunks outcomes chunks 0 hl

/-- The observable steps of `playbackCycle`. -/
inductive CycleEvent
  | playOriginalAudio (audioBlob : Nat)
  | delay (ms : Nat)
  | speak (e : SpeakEvent)
deriving DecidableEq, Repr

/-- The source's `playbackCycle`: play the recorded audio, wait 500 ms,
then run the Thai highlight sequence; each step awaited before the next. -/
def playbackCycle (audioBlob : Nat) (currentThai : JStr) (hl : List Bool)
    (outcomes : Nat → ChunkOutcome) : List CycleEvent × List Bool :=
  let speakResult := speakThaiWithHighlighting currentThai hl outcomes
  (.playOriginalAudio audioBlob :: .delay 500 :: speakResult.1.map .speak,
   speakResult.2)

/-! ## Basic facts about `splitWsRuns` and the scanner equivalence -/

theorem splitWsRuns_nil : splitWsRuns [] = [[]] := by
  simp [splitWsRuns]

theorem splitWsRuns_cons_of_ws {c : Char} (cs : JStr) (h : isWs c = true) :
    splitWsRuns (c :: cs) = [] :: splitWsRuns (cs.dropWhile isWs) := by
  simp [splitWsRuns, h]

theorem splitWsRuns_ne_nil (s : JStr) : splitWsRuns s ≠ [] := by
  cases s with
  | nil => simp [splitWsRuns]
  | cons c cs =>
    by_cases h : isWs c
    · simp [splitWsRuns, h]
    · simp only [splitWsRuns, if_neg h]
      rcases h' : splitWsRuns cs with _ | ⟨t, ts⟩ <;> simp

theorem splitWsRuns_cons_of_not {c : Char} (cs : JStr) (h : isWs c = false) :
    splitWsRuns (c :: cs) =
      (c :: (splitWsRuns cs).headI) :: (splitWsRuns cs).tail := by
  have h' : ¬ isWs c = true := by simp [h]
  rcases hcs : splitWsRuns cs with _ | ⟨t, ts⟩
  · exact absurd hcs (splitWsRuns_ne_nil cs)
  · simp only [splitWsRuns, if_neg h', hcs, List.headI, List.tail]

theorem splitWsGo_eq (s : JStr) :
    (∀ acc : JStr,
        splitWsGo s acc false =
          (acc.reverse ++ (splitWsRuns s).headI) :: (splitWsRuns s).tail) ∧
    (∀ acc : JStr, splitWsGo s acc true = splitWsRuns (s.dropWhile isWs)) := by
  induction s with
  | nil =>
    refine ⟨fun acc => ?_, fun acc => ?_⟩
    · simp [splitWsGo, splitWsRuns_nil]
    · simp [splitWsGo, splitWsRuns_nil]
  | cons c cs ih =>
    obtain ⟨ih1, ih2⟩ := ih
    by_cases h : isWs c
    · refine ⟨fun acc => ?_, fun acc => ?_⟩
      · rw [show splitWsGo (c :: cs) acc false = acc.reverse :: splitWsGo cs [] true from by
          simp [splitWsGo, h]]
        rw [ih2, splitWsRuns_cons_of_ws cs h]
        simp
      · rw [show splitWsGo (c :: cs) acc true = splitWsGo cs [] true from by
          simp [splitWsGo, h]]
        rw [ih2, List.dropWhile_cons_of_pos h]
    · have h0 : isWs c = false := by simpa using h
      refine ⟨fun acc => ?_, fun acc => ?_⟩
      · rw [show splitWsGo (c :: cs) acc false = splitWsGo cs (c :: acc) false from by
          simp [splitWsGo, h]]
        rw [ih1 (c :: acc), splitWsRuns_cons_of_not cs h0]
        simp
      · rw [show splitWsGo (c :: cs) acc true = splitWsGo cs [c] false from by
          simp [splitWsGo, h]]
        rw [ih1 [c], List.dropWhile_cons_of_neg h, splitWsRuns_cons_of_not cs h0]
        simp

/-- The scanner `splitWs` agrees with its run-structured view. -/
theorem splitWs_eq_runs (s : JStr) : splitWs s = splitWsRuns s := by
  have h := (splitWsGo_eq s).1 []
  rcases hs : splitWsRuns s with _ | ⟨t, ts⟩
  · exact absurd hs (splitWsRuns_ne_nil s)
  · simpa [splitWs, hs] using h

/-- The scanner `collapseWs` agrees with its run-structured view. -/
theorem collapseWs_eq_runs (s : JStr) : collapseWs s = collapseRuns s := by
  suffices h : (collapseGo s false = collapseRuns s) ∧
      (collapseGo s true = collapseRuns (s.dropWhile isWs)) from h.1
  induction s with
  | nil => constructor <;> simp [collapseGo, collapseRuns]
  | cons c cs ih =>
    obtain ⟨ih1, ih2⟩ := ih
    by_cases h : isWs c
    · constructor
      · rw [show collapseGo (c :: cs) false = ' ' :: collapseGo cs true from by
          simp [collapseGo, h]]
        rw [ih2, show collapseRuns (c :: cs) = ' ' :: collapseRuns (cs.dropWhile isWs) from by
          simp [collapseRuns, h]]
      · rw [show collapseGo (c :: cs) true = collapseGo cs true from by
          simp [collapseGo, h]]
        rw [ih2, List.dropWhile_cons_of_pos h]
    · constructor
      · rw [show collapseGo (c :: cs) false = c :: collapseGo cs false from by
          simp [collapseGo, h]]
        rw [ih1, show collapseRuns (c :: cs) = c :: collapseRuns cs from by
          simp [collapseRuns, h]]
      · rw [show collapseGo (c :: cs) true = c :: collapseGo cs false from by
          simp [collapseGo, h]]
        rw [ih1, List.dropWhile_cons_of_neg h,
          show collapseRuns (c :: cs) = c :: collapseRuns cs from by
            simp [collapseRuns, h]]

/-! ## Membership facts for `splitWs` -/

theorem mem_splitWsRuns (s : JStr) :
    ∀ w ∈ splitWsRuns s, ∀ c ∈ w, c ∈ s ∧ isWs c = false := by
  induction s using splitWsRuns.induct with
  | case1 =>
    intro w hw
    rw [splitWsRuns_nil] at hw
    simp only [List.mem_singleton] at hw
    subst hw
    intro c hc
    simp at hc
  | case2 c cs h ih =>
    intro w hw
    rw [splitWsRuns_cons_of_ws cs h] at hw
    rcases List.mem_cons.mp hw with h' | h'
    · intro d hd; rw [h'] at hd; simp at hd
    · intro d hd
      obtain ⟨hmem, hws⟩ := ih w h' d hd
      exact ⟨List.mem_cons_of_mem c ((List.dropWhile_suffix isWs).sublist.subset hmem), hws⟩
  | case3 c cs h hnil ih =>
    exact absurd hnil (splitWsRuns_ne_nil cs)
  | case4 c cs h t ts hcs ih =>
    intro w hw
    have h0 : isWs c = false := by simpa using h
    rw [splitWsRuns_cons_of_not cs h0, hcs] at hw
    simp only [List.headI, List.tail] at hw
    rcases List.mem_cons.mp hw with h' | h'
    · intro d hd
      rw [h'] at hd
      rcases List.mem_cons.mp hd with h'' | h''
      · rw [h'']
        exact ⟨List.mem_cons_self c cs, h0⟩
      · obtain ⟨hmem, hws⟩ := ih t (by rw [hcs]; exact List.mem_cons_self t ts) d h''
        exact ⟨List.mem_cons_of_mem c hmem, hws⟩
    · intro d hd
      obtain ⟨hmem, hws⟩ := ih w (by rw [hcs]; exact List.mem_cons_of_mem t h') d hd
      exact ⟨List.mem_cons_of_mem c hmem, hws⟩

theorem mem_splitWs {s : JStr} {w : JStr} (hw : w ∈ splitWs s) :
    ∀ c ∈ w, c ∈ s ∧ isWs c = false :=
  mem_splitWsRuns s w (splitWs_eq_runs s ▸ hw)

theorem splitWs_all_ws {s : JStr} (hs : ∀ c ∈ s, isWs c = true) :
    ∀ w ∈ splitWs s, w = [] := by
  intro w hw
  cases w with
  | nil => rfl
  | cons c cs =>
    obtain ⟨hmem, hws⟩ := mem_splitWs hw c (List.mem_cons_self c cs)
    rw [hs c hmem] at hws
    cases hws

/-! ## `trim` and `rtrimWs` -/

theorem head_dropWhile_not {l : JStr} {c : Char} {cs : JStr}
    (h : l.dropWhile isWs = c :: cs) : isWs c = false := by
  induction l with
  | nil => simp at h
  | cons a l ih =>
    by_cases ha : isWs a
    · rw [List.dropWhile_cons_of_pos ha] at h
      exact ih h
    · rw [List.dropWhile_cons_of_neg ha] at h
      obtain ⟨h1, _⟩ := List.cons.injEq .. ▸ h
      simpa [← h1] using ha

theorem dropWhile_isWs_idem (l : JStr) :
    (l.dropWhile isWs).dropWhile isWs = l.dropWhile isWs := by
  rcases h : l.dropWhile isWs with _ | ⟨c, cs⟩
  · rfl
  · exact List.dropWhile_cons_of_neg (by simp [head_dropWhile_not h])

theorem rtrimWs_nil : rtrimWs [] = [] := rfl

theorem rtrimWs_eq_nil_iff {s : JStr} : rtrimWs s = [] ↔ ∀ c ∈ s, isWs c = true := by
  rw [rtrimWs, List.reverse_eq_nil_iff, List.dropWhile_eq_nil_iff]
  constructor
  · intro h c hc; exact h c (List.mem_reverse.mpr hc)
  · intro h c hc; exact h c (List.mem_reverse.mp hc)

theorem rtrimWs_append_of_ne_nil {b : JStr} (a : JStr) (hb : rtrimWs b ≠ []) :
    rtrimWs (a ++ b) = a ++ rtrimWs b := by
  have hb' : b.reverse.dropWhile isWs ≠ [] := by
    intro h
    exact hb (by simp [rtrimWs, h])
  rw [rtrimWs, List.reverse_append, List.dropWhile_append,
    if_neg (by simpa [List.isEmpty_iff] using hb'), List.reverse_append,
    List.reverse_reverse, rtrimWs]

theorem rtrimWs_append_all_ws {b : JStr} (a : JStr) (hb : ∀ c ∈ b, isWs c = true) :
    rtrimWs (a ++ b) = rtrimWs a := by
  have hb' : b.reverse.dropWhile isWs = [] :=
    List.dropWhile_eq_nil_iff.mpr fun c hc => hb c (List.mem_reverse.mp hc)
  rw [rtrimWs, List.reverse_append, List.dropWhile_append,
    if_pos (by simpa [List.isEmpty_iff] using hb'), rtrimWs]

theorem mem_rtrimWs {s : JStr} {c : Char} (h : c ∈ rtrimWs s) : c ∈ s := by
  rw [rtrimWs, List.mem_reverse] at h
  exact List.mem_reverse.mp ((List.dropWhile_suffix isWs).sublist.subset h)

theorem rtrimWs_idem (s : JStr) : rtrimWs (rtrimWs s) = rtrimWs s := by
  rw [rtrimWs, rtrimWs, List.reverse_reverse, dropWhile_isWs_idem]

theorem trim_eq_nil_iff {s : JStr} : trim s = [] ↔ ∀ c ∈ s, isWs c = true := by
  rw [trim, rtrimWs_eq_nil_iff]
  constructor
  · intro h c hc
    rcases hd : decide (c ∈ s.dropWhile isWs) with _ | _
    · have : c ∈ s.takeWhile isWs := by
        have := List.takeWhile_append_dropWhile isWs s
        rw [← this] at hc
        rcases List.mem_append.mp hc with h' | h'
        · exact h'
        · simp [h'] at hd
      exact List.mem_takeWhile_imp this
    · exact h c (of_decide_eq_true hd)
  · intro h c hc
    exact h c ((List.dropWhile_suffix isWs).sublist.subset hc)

theorem mem_trim {s : JStr} {c : Char} (h : c ∈ trim s) : c ∈ s :=
  (List.dropWhile_suffix isWs).sublist.subset (mem_rtrimWs h)

theorem trim_length_le (s : JStr) : (trim s).length ≤ s.length := by
  calc (trim s).length = ((s.dropWhile isWs).reverse.dropWhile isWs).length := by
        rw [trim, rtrimWs, List.length_reverse]
    _ ≤ (s.dropWhile isWs).reverse.length :=
        (List.dropWhile_suffix isWs).sublist.length_le
    _ = (s.dropWhile isWs).length := List.length_reverse _
    _ ≤ s.length := (List.dropWhile_suffix isWs).sublist.length_le

theorem trim_eq_self_of_not_ws {s : JStr} (h : ∀ c ∈ s, isWs c = false) :
    trim s = s := by
  have h1 : s.dropWhile isWs = s := by
    cases s with
    | nil => rfl
    | cons c cs => exact List.dropWhile_cons_of_neg (by simp [h c (List.mem_cons_self c cs)])
  rw [trim, h1, rtrimWs]
  rcases hr : s.reverse with _ | ⟨c, cs⟩
  · simp [List.reverse_eq_nil_iff.mp hr]
  · rw [List.dropWhile_cons_of_neg
      (by simp [h c (List.mem_reverse.mp (hr ▸ List.mem_cons_self c cs))]), ← hr,
      List.reverse_reverse]

theorem rtrimWs_append_decomp (y : JStr) :
    y = rtrimWs y ++ (y.reverse.takeWhile isWs).reverse ∧
      ∀ c ∈ (y.reverse.takeWhile isWs).reverse, isWs c = true := by
  constructor
  · conv_lhs => rw [← List.reverse_reverse y, ← List.takeWhile_append_dropWhile isWs y.reverse]
    rw [List.reverse_append, rtrimWs]
  · intro c hc
    exact List.mem_takeWhile_imp (List.mem_reverse.mp hc)

theorem trim_idem (s : JStr) : trim (trim s) = trim s := by
  rcases h : trim s with _ | ⟨c, cs⟩
  · rw [show trim ([] : JStr) = [] from rfl]
  · have hc : isWs c = false := by
      obtain ⟨hdec, hws⟩ := rtrimWs_append_decomp (s.dropWhile isWs)
      have h' : s.dropWhile isWs = c :: (cs ++ (((s.dropWhile isWs).reverse.takeWhile isWs).reverse)) := by
        rw [← List.cons_append, ← h, trim, ← hdec]
      exact head_dropWhile_not h'
    rw [← h, trim, show trim s = rtrimWs (s.dropWhile isWs) from rfl]
    rw [show (rtrimWs (s.dropWhile isWs)).dropWhile isWs = rtrimWs (s.dropWhile isWs) from ?_,
      rtrimWs_idem]
    rw [show trim s = rtrimWs (s.dropWhile isWs) from rfl] at h
    rw [h]
    exact List.dropWhile_cons_of_neg (by simp [hc])

theorem trim_append_all_ws {b : JStr} (a : JStr) (hb : ∀ c ∈ b, isWs c = true) :
    trim (a ++ b) = trim a := by
  rcases hda : a.dropWhile isWs with _ | ⟨c, cs⟩
  · have hdb : (a ++ b).dropWhile isWs = b.dropWhile isWs := by
      rw [List.dropWhile_append, if_pos (by simpa [List.isEmpty_iff] using hda)]
    have hb' : b.dropWhile isWs = [] := List.dropWhile_eq_nil_iff.mpr hb
    rw [trim, trim, hda, hdb, hb']
  · have hdb : (a ++ b).dropWhile isWs = a.dropWhile isWs ++ b := by
      rw [List.dropWhile_append, if_neg (by simp [List.isEmpty_iff, hda])]
    rw [trim, trim, hdb, rtrimWs_append_all_ws _ hb]

/-! ## `joinSp` -/

theorem joinSp_cons {rest : List JStr} (chunk : JStr) (h : rest ≠ []) :
    joinSp (chunk :: rest) = chunk ++ ' ' :: joinSp rest := by
  cases rest with
  | nil => exact absurd rfl h
  | cons r rs => rfl

theorem joinSp_append {a b : List JStr} (ha : a ≠ []) (hb : b ≠ []) :
    joinSp (a ++ b) = joinSp a ++ ' ' :: joinSp b := by
  induction a with
  | nil => exact absurd rfl ha
  | cons x a ih =>
    cases a with
    | nil =>
      cases b with
      | nil => exact absurd rfl hb
      | cons y bs => simp [joinSp]
    | cons x' a' =>
      rw [List.cons_append, joinSp_cons x (by simp),
        joinSp_cons x (by simp), ih (by simp) , List.append_assoc]
      rfl

theorem joinSp_ne_nil {l : List JStr} (h : l ≠ []) (h2 : ∀ w ∈ l, w ≠ []) :
    joinSp l ≠ [] := by
  cases l with
  | nil => exact absurd rfl h
  | cons x rest =>
    cases rest with
    | nil => exact h2 x (List.mem_cons_self x [])
    | cons r rs =>
      rw [joinSp_cons x (by simp)]
      simp

theorem mem_joinSp_of {l : List JStr} {w : JStr} {c : Char}
    (hw : w ∈ l) (hc : c ∈ w) : c ∈ joinSp l := by
  induction l with
  | nil => simp at hw
  | cons x rest ih =>
    cases rest with
    | nil =>
      rcases List.mem_cons.mp hw with h | h
      · exact h ▸ hc
      · simp at h
    | cons r rs =>
      rw [joinSp_cons x (by simp)]
      rcases List.mem_cons.mp hw with h | h
      · exact List.mem_append.mpr (Or.inl (h ▸ hc))
      · exact List.mem_append.mpr (Or.inr (List.mem_cons_of_mem _ (ih h)))

/-- A list of non-empty whitespace-free words. -/
def GoodWords (l : List JStr) : Prop :=
  ∀ w ∈ l, w ≠ [] ∧ ∀ c ∈ w, isWs c = false

theorem rtrimWs_joinSp {l : List JStr} (hl : l ≠ []) (h : GoodWords l) :
    rtrimWs (joinSp l) = joinSp l := by
  induction l with
  | nil => exact absurd rfl hl
  | cons x rest ih =>
    cases rest with
    | nil =>
      show rtrimWs x = x
      obtain ⟨hx, hxc⟩ := h x (List.mem_cons_self x [])
      rw [rtrimWs]
      rcases hr : x.reverse with _ | ⟨c, cs⟩
      · simp [List.reverse_eq_nil_iff.mp hr]
      · rw [List.dropWhile_cons_of_neg
          (by simp [hxc c (List.mem_reverse.mp (hr ▸ List.mem_cons_self c cs))]), ← hr,
          List.reverse_reverse]
    | cons r rs =>
      have hrest : GoodWords (r :: rs) := fun w hw => h w (List.mem_cons_of_mem x hw)
      have hjr : rtrimWs (joinSp (r :: rs)) = joinSp (r :: rs) := ih (by simp) hrest
      have hne : joinSp (r :: rs) ≠ [] :=
        joinSp_ne_nil (by simp) fun w hw => (hrest w hw).1
      rw [joinSp_cons x (by simp), show (' ' :: joinSp (r :: rs)) = [' '] ++ joinSp (r :: rs)
          from rfl, ← List.append_assoc,
        rtrimWs_append_of_ne_nil (x ++ [' ']) (by rw [hjr]; exact hne), hjr,
        List.append_assoc]

theorem trim_joinSp {l : List JStr} (hl : l ≠ []) (h : GoodWords l) :
    trim (joinSp l) = joinSp l := by
  have hd : (joinSp l).dropWhile isWs = joinSp l := by
    cases l with
    | nil => exact absurd rfl hl
    | cons x rest =>
      obtain ⟨hx, hxc⟩ := h x (List.mem_cons_self x rest)
      have hjoin : ∃ z, joinSp (x :: rest) = x ++ z := by
        cases rest with
        | nil => exact ⟨[], by simp [joinSp]⟩
        | cons r rs => exact ⟨' ' :: joinSp (r :: rs), joinSp_cons x (by simp)⟩
      obtain ⟨z, hz⟩ := hjoin
      rcases hxe : x with _ | ⟨c, cs⟩
      · exact absurd hxe hx
      · rw [hxe] at hz
        rw [hz, List.cons_append]
        exact List.dropWhile_cons_of_neg
          (by simp [hxc c (by rw [hxe]; exact List.mem_cons_self c cs)])
  rw [trim, hd]
  exact rtrimWs_joinSp hl h

theorem trim_joinSp_space {l : List JStr} (hl : l ≠ []) (h : GoodWords l) :
    trim (joinSp l ++ [' ']) = joinSp l := by
  rw [trim_append_all_ws _ (by intro c hc; simp at hc; simp [hc, isWs])]
  exact trim_joinSp hl h

/-! ## The word loop in direct-recursion form -/

theorem foldl_chunkStep_eq (maxLength : Nat) (ws : List JStr) :
    ∀ (chunks : List JStr) (cc : JStr),
      (if (ws.foldl (chunkStep maxLength) (chunks, cc)).2 ≠ [] then
        (ws.foldl (chunkStep maxLength) (chunks, cc)).1 ++
          [trim (ws.foldl (chunkStep maxLength) (chunks, cc)).2]
      else (ws.foldl (chunkStep maxLength) (chunks, cc)).1) =
      chunks ++ chunkLoop maxLength ws cc := by
  induction ws with
  | nil =>
    intro chunks cc
    simp only [List.foldl_nil, chunkLoop]
    by_cases h : cc = []
    · simp [h]
    · simp [h]
  | cons w ws ih =>
    intro chunks cc
    simp only [List.foldl_cons, chunkLoop, chunkStep]
    by_cases h : maxLength < (cc ++ ' ' :: w).length ∧ cc ≠ []
    · simp only [if_pos h]
      rw [ih (chunks ++ [trim cc]) w, List.append_assoc]
      rfl
    · simp only [if_neg h]
      exact ih chunks _

theorem splitTextIntoChunks_eq_chunkLoop (text : JStr) (maxLength : Nat)
    (h : maxLength < text.length) :
    splitTextIntoChunks text maxLength = chunkLoop maxLength (splitWs text) [] := by
  have h' : ¬ text.length ≤ maxLength := Nat.not_le_of_lt h
  simp only [splitTextIntoChunks, if_neg h']
  have := foldl_chunkStep_eq maxLength (splitWs text) [] []
  simpa using this

/-! ## Invariants of the word loop -/

theorem trim_chunk_bound {maxLength : Nat} {allWords : List JStr}
    (hAW : ∀ w ∈ allWords, ∀ c ∈ w, isWs c = false) {cc : JStr}
    (hcc : cc.length ≤ maxLength ∨ cc ∈ allWords) :
    (trim cc).length ≤ maxLength ∨
      (trim cc ∈ allWords ∧ ∀ c ∈ trim cc, isWs c = false) := by
  rcases hcc with h | h
  · exact Or.inl ((trim_length_le cc).trans h)
  · rw [trim_eq_self_of_not_ws (hAW cc h)]
    exact Or.inr ⟨h, hAW cc h⟩

theorem chunkLoop_bound (maxLength : Nat) (allWords : List JStr)
    (hAW : ∀ w ∈ allWords, ∀ c ∈ w, isWs c = false) :
    ∀ (ws : List JStr) (cc : JStr),
      (∀ w ∈ ws, w ∈ allWords) →
      (cc = [] ∨ cc.length ≤ maxLength ∨ cc ∈ allWords) →
      ∀ chunk ∈ chunkLoop maxLength ws cc,
        chunk.length ≤ maxLength ∨
          (chunk ∈ allWords ∧ ∀ c ∈ chunk, isWs c = false) := by
  intro ws
  induction ws with
  | nil =>
    intro cc hws hcc chunk hchunk
    simp only [chunkLoop] at hchunk
    by_cases h : cc = []
    · simp [h] at hchunk
    · rw [if_pos h, List.mem_singleton] at hchunk
      subst hchunk
      rcases hcc with h' | h'
      · exact absurd h' h
      · exact trim_chunk_bound hAW h'
  | cons w ws ih =>
    intro cc hws hcc chunk hchunk
    have hwA : w ∈ allWords := hws w (List.mem_cons_self w ws)
    have hws' : ∀ v ∈ ws, v ∈ allWords := fun v hv => hws v (List.mem_cons_of_mem w hv)
    simp only [chunkLoop] at hchunk
    by_cases hcond : maxLength < (cc ++ ' ' :: w).length ∧ cc ≠ []
    · rw [if_pos hcond] at hchunk
      rcases List.mem_cons.mp hchunk with h | h
      · subst h
        rcases hcc with h' | h'
        · exact absurd h' hcond.2
        · exact trim_chunk_bound hAW h'
      · exact ih w hws' (Or.inr (Or.inr hwA)) chunk h
    · rw [if_neg hcond] at hchunk
      by_cases hnil : cc = []
      · rw [if_neg (by simp [hnil])] at hchunk
        exact ih w hws' (Or.inr (Or.inr hwA)) chunk hchunk
      · rw [if_pos hnil] at hchunk
        have hlen : (cc ++ ' ' :: w).length ≤ maxLength := by
          rcases Nat.lt_or_ge maxLength (cc ++ ' ' :: w).length with hl | hl
          · exact absurd ⟨hl, hnil⟩ hcond
          · exact hl
        exact ih (cc ++ ' ' :: w) hws' (Or.inr (Or.inl hlen)) chunk hchunk

theorem chunkLoop_chunks_wf (maxLength : Nat) :
    ∀ (ws : List JStr) (cc : JStr),
      (∀ w ∈ ws, ∀ c ∈ w, isWs c = false) →
      (cc = [] ∨ ∃ c ∈ cc, isWs c = false) →
      ∀ chunk ∈ chunkLoop maxLength ws cc, chunk ≠ [] ∧ trim chunk = chunk := by
  have htrim : ∀ cc : JStr, (∃ c ∈ cc, isWs c = false) →
      trim cc ≠ [] ∧ trim (trim cc) = trim cc := by
    intro cc ⟨c, hc, hws⟩
    refine ⟨fun h => ?_, trim_idem cc⟩
    rw [trim_eq_nil_iff.mp h c hc] at hws
    cases hws
  intro ws
  induction ws with
  | nil =>
    intro cc hws hcc chunk hchunk
    simp only [chunkLoop] at hchunk
    by_cases h : cc = []
    · simp [h] at hchunk
    · rw [if_pos h, List.mem_singleton] at hchunk
      subst hchunk
      rcases hcc with h' | h'
      · exact absurd h' h
      · exact htrim cc h'
  | cons w ws ih =>
    intro cc hws hcc chunk hchunk
    have hwf : ∀ c ∈ w, isWs c = false := hws w (List.mem_cons_self w ws)
    have hws' : ∀ v ∈ ws, ∀ c ∈ v, isWs c = false :=
      fun v hv => hws v (List.mem_cons_of_mem w hv)
    have hwInv : w = [] ∨ ∃ c ∈ w, isWs c = false := by
      cases w with
      | nil => exact Or.inl rfl
      | cons a as => exact Or.inr ⟨a, List.mem_cons_self a as,
          hwf a (List.mem_cons_self a as)⟩
    simp only [chunkLoop] at hchunk
    by_cases hcond : maxLength < (cc ++ ' ' :: w).length ∧ cc ≠ []
    · rw [if_pos hcond] at hchunk
      rcases List.mem_cons.mp hchunk with h | h
      · subst h
        rcases hcc with h' | h'
        · exact absurd h' hcond.2
        · exact htrim cc h'
      · exact ih w hws' hwInv chunk h
    · rw [if_neg hcond] at hchunk
      by_cases hnil : cc = []
      · rw [if_neg (by simp [hnil])] at hchunk
        exact ih w hws' hwInv chunk hchunk
      · rw [if_pos hnil] at hchunk
        rcases hcc with h' | h'
        · exact absurd h' hnil
        · obtain ⟨c, hc, hcw⟩ := h'
          exact ih (cc ++ ' ' :: w) hws'
            (Or.inr ⟨c, List.mem_append.mpr (Or.inl hc), hcw⟩) chunk hchunk

theorem chunkLoop_all_nil (maxLength : Nat) :
    ∀ ws : List JStr, (∀ w ∈ ws, w = []) → chunkLoop maxLength ws [] = [] := by
  intro ws
  induction ws with
  | nil => simp [chunkLoop]
  | cons w ws ih =>
    intro h
    have hw : w = [] := h w (List.mem_cons_self w ws)
    subst hw
    simp only [chunkLoop, ne_eq, not_true_eq_false, and_false, if_false,
      List.nil_append]
    simpa using ih fun v hv => h v (List.mem_cons_of_mem [] hv)

/-! ## C5 and C10: chunk lengths and chunk well-formedness -/

/-- C5: every produced chunk either fits in `maxLength`, or is a single
whitespace-delimited word of the input (whitespace-free, hence placed
alone, never split mid-word). -/
theorem chunk_length_bound (text : JStr) (maxLength : Nat) :
    ∀ chunk ∈ splitTextIntoChunks text maxLength,
      chunk.length ≤ maxLength ∨
        (chunk ∈ splitWs text ∧ ∀ c ∈ chunk, isWs c = false) := by
  by_cases h : text.length ≤ maxLength
  · intro chunk hchunk
    simp only [splitTextIntoChunks, if_pos h, List.mem_singleton] at hchunk
    subst hchunk
    exact Or.inl h
  · rw [splitTextIntoChunks_eq_chunkLoop text maxLength (Nat.lt_of_not_le h)]
    exact chunkLoop_bound maxLength (splitWs text)
      (fun w hw c hc => (mem_splitWs hw c hc).2) (splitWs text) []
      (fun w hw => hw) (Or.inl rfl)

theorem chunk_length_bound_witness :
    "aaaaaaa".toList.length ≤ 5 ∨
      ("aaaaaaa".toList ∈ splitWs "aaaaaaa bb".toList ∧
        ∀ c ∈ "aaaaaaa".toList, isWs c = false) :=
  chunk_length_bound "aaaaaaa bb".toList 5 "aaaaaaa".toList (by decide)

/-- C10: for inputs longer than `maxLength`, every chunk is non-empty and
carries no leading or trailing whitespace; an all-whitespace input yields
the empty sequence. -/
theorem chunk_long_wf (text : JStr) (maxLength : Nat) (h : maxLength < text.length) :
    (∀ chunk ∈ splitTextIntoChunks text maxLength, chunk ≠ [] ∧ trim chunk = chunk) ∧
    ((∀ c ∈ text, isWs c = true) → splitTextIntoChunks text maxLength = []) := by
  rw [splitTextIntoChunks_eq_chunkLoop text maxLength h]
  constructor
  · exact chunkLoop_chunks_wf maxLength (splitWs text) []
      (fun w hw c hc => (mem_splitWs hw c hc).2) (Or.inl rfl)
  · intro hws
    exact chunkLoop_all_nil maxLength (splitWs text) (splitWs_all_ws hws)

theorem chunk_long_wf_witness :
    ("aa".toList ≠ [] ∧ trim "aa".toList = "aa".toList) ∧
      splitTextIntoChunks "   ".toList 1 = [] :=
  ⟨(chunk_long_wf "aa bb".toList 3 (by decide)).1 "aa".toList (by decide),
   (chunk_long_wf "   ".toList 1 (by decide)).2 (by decide)⟩

/-! ## C4 and C7: the short-text branch and the empty input -/

/-- C4: a text no longer than `maxLength` is returned unchanged, alone. -/
theorem chunk_short_id (s : JStr) (maxLength : Nat) (h : s.length ≤ maxLength) :
    splitTextIntoChunks s maxLength = [s] := by
  simp [splitTextIntoChunks, h]

theorem chunk_short_id_witness :
    ("hello".toList.length ≤ 200) ∧ splitTextIntoChunks "hello".toList 200 = ["hello".toList] :=
  ⟨by decide, chunk_short_id "hello".toList 200 (by decide)⟩

/-- C7 (amended): the chunker is a total function, and on the empty string
it returns the one-element sequence holding the empty string. -/
theorem chunk_nil (maxLength : Nat) : splitTextIntoChunks [] maxLength = [[]] := by
  simp [splitTextIntoChunks]

/-- C7 counterexample: on the empty string the chunker returns `[""]`,
a one-element sequence, not a sequence with zero elements. -/
theorem chunk_nil_not_empty :
    splitTextIntoChunks [] 200 = [[]] ∧ splitTextIntoChunks [] 200 ≠ [] := by
  constructor
  · simp [splitTextIntoChunks]
  · simp [splitTextIntoChunks]

/-! ## Shape of `splitWs` output: empty tokens only at the boundaries -/

theorem midOK_nil : MidOK ([] : List JStr) := by
  intro w hw
  simp at hw

theorem startOK_nil : StartOK ([] : List JStr) := Or.inl midOK_nil

theorem midOK_of_startOK_cons {t : JStr} {ts : List JStr} (h : StartOK (t :: ts)) :
    MidOK ts := by
  rcases h with h | ⟨ws', hws', h⟩
  · intro w hw
    cases ts with
    | nil => simp at hw
    | cons a as =>
      apply h
      rw [List.dropLast_cons_of_ne_nil (by simp : (a :: as) ≠ [])]
      exact List.mem_cons_of_mem t hw
  · obtain ⟨-, h2⟩ := List.cons.injEq .. ▸ hws'
    exact h2 ▸ h

theorem startOK_tail_of_nil_head {ws : List JStr} (h : StartOK ([] :: ws)) :
    StartOK ws := by
  rcases h with h | ⟨ws', hws', h⟩
  · cases ws with
    | nil => exact startOK_nil
    | cons a as =>
      exfalso
      apply h [] _ rfl
      rw [List.dropLast_cons_of_ne_nil (by simp : (a :: as) ≠ [])]
      exact List.mem_cons_self [] _
  · obtain ⟨-, h2⟩ := List.cons.injEq .. ▸ hws'
    exact Or.inl (h2 ▸ h)

theorem midOK_cons_nil_head {ws : List JStr} (h : MidOK ([] :: ws)) : ws = [] := by
  cases ws with
  | nil => rfl
  | cons a as =>
    exfalso
    apply h [] _ rfl
    rw [List.dropLast_cons_of_ne_nil (by simp : (a :: as) ≠ [])]
    exact List.mem_cons_self [] _

theorem startOK_splitWsRuns (s : JStr) : StartOK (splitWsRuns s) := by
  induction s using splitWsRuns.induct with
  | case1 =>
    rw [splitWsRuns_nil]
    refine Or.inl fun w hw => ?_
    simp at hw
  | case2 c cs h ih =>
    rw [splitWsRuns_cons_of_ws cs h]
    refine Or.inr ⟨splitWsRuns (cs.dropWhile isWs), rfl, ?_⟩
    rcases hd : cs.dropWhile isWs with _ | ⟨d, ds⟩
    · rw [splitWsRuns_nil]
      intro w hw
      simp at hw
    · have hdws : isWs d = false := head_dropWhile_not hd
      rw [hd] at ih
      rw [splitWsRuns_cons_of_not ds hdws] at ih ⊢
      rcases ih with h' | ⟨ws', hws', h'⟩
      · exact h'
      · exact absurd (congrArg List.headI hws') (by simp)
  | case3 c cs h hnil ih =>
    exact absurd hnil (splitWsRuns_ne_nil cs)
  | case4 c cs h t ts hcs ih =>
    have h0 : isWs c = false := by simpa using h
    rw [splitWsRuns_cons_of_not cs h0, hcs]
    simp only [List.headI, List.tail]
    rw [hcs] at ih
    have hts : MidOK ts := midOK_of_startOK_cons ih
    refine Or.inl fun w hw => ?_
    cases ts with
    | nil => simp at hw
    | cons a as =>
      rw [List.dropLast_cons_of_ne_nil (by simp : (a :: as) ≠ [])] at hw
      rcases List.mem_cons.mp hw with h' | h'
      · rw [h']; simp
      · exact hts w h'

theorem startOK_splitWs (s : JStr) : StartOK (splitWs s) := by
  rw [splitWs_eq_runs]
  exact startOK_splitWsRuns s

theorem joinSp_cons_general (a : JStr) (r : List JStr) :
    joinSp (a :: r) = a ++ if r = [] then [] else ' ' :: joinSp r := by
  cases r with
  | nil => simp [joinSp]
  | cons x xs => rw [joinSp_cons a (by simp), if_neg (by simp)]

/-! ## `normalizeWs` in terms of the non-empty tokens -/

theorem collapseRuns_nil : collapseRuns [] = [] := by
  simp [collapseRuns]

theorem collapseRuns_cons_of_ws {c : Char} (cs : JStr) (h : isWs c = true) :
    collapseRuns (c :: cs) = ' ' :: collapseRuns (cs.dropWhile isWs) := by
  simp [collapseRuns, h]

theorem collapseRuns_cons_of_not {c : Char} (cs : JStr) (h : isWs c = false) :
    collapseRuns (c :: cs) = c :: collapseRuns cs := by
  simp [collapseRuns, h]

theorem rtrimWs_ne_nil_of_head {c : Char} {x : JStr} (h : isWs c = false) :
    rtrimWs (c :: x) ≠ [] := by
  intro h0
  have := rtrimWs_eq_nil_iff.mp h0 c (List.mem_cons_self c x)
  rw [h] at this
  cases this

theorem rtrimWs_singleton_of_not {c : Char} (h : isWs c = false) :
    rtrimWs [c] = [c] := by
  have h2 : List.dropWhile isWs [c] = [c] := List.dropWhile_cons_of_neg (by simp [h])
  rw [rtrimWs, show ([c] : JStr).reverse = [c] from rfl, h2]
  rfl

theorem rtrimWs_collapseRuns :
    ∀ (n : Nat) (s : JStr), s.length ≤ n →
      (s = [] ∨ ∃ c cs, s = c :: cs ∧ isWs c = false) →
      rtrimWs (collapseRuns s) =
        joinSp ((splitWsRuns s).filter (fun w => w ≠ [])) := by
  intro n
  induction n with
  | zero =>
    intro s hlen hs
    have hnil : s = [] := List.length_eq_zero.mp (Nat.le_zero.mp hlen)
    subst hnil
    rw [collapseRuns_nil, rtrimWs_nil, splitWsRuns_nil]
    simp [joinSp]
  | succ n ih =>
    intro s hlen hs
    rcases hs with rfl | ⟨c, cs, rfl, hc⟩
    · rw [collapseRuns_nil, rtrimWs_nil, splitWsRuns_nil]
      simp [joinSp]
    · rw [collapseRuns_cons_of_not cs hc, splitWsRuns_cons_of_not cs hc]
      rcases cs with _ | ⟨d, cs'⟩
      · rw [splitWsRuns_nil]
        simp only [List.headI, List.tail]
        rw [collapseRuns_nil, rtrimWs_singleton_of_not hc]
        simp [joinSp]
      · by_cases hd : isWs d
        · rw [collapseRuns_cons_of_ws cs' hd, splitWsRuns_cons_of_ws cs' hd]
          simp only [List.headI, List.tail]
          rcases hsE : cs'.dropWhile isWs with _ | ⟨e, es⟩
          · rw [collapseRuns_nil, splitWsRuns_nil]
            rw [show (c :: ' ' :: ([] : JStr)) = [c] ++ [' '] from rfl,
              rtrimWs_append_all_ws [c] (by intro x hx; simp at hx; simp [hx, isWs]),
              rtrimWs_singleton_of_not hc]
            simp [joinSp]
          · have he : isWs e = false := head_dropWhile_not hsE
            have hlen'' : (e :: es).length ≤ n := by
              have h1 : (cs'.dropWhile isWs).length ≤ cs'.length :=
                (List.dropWhile_suffix isWs).sublist.length_le
              rw [hsE] at h1
              have h2 : cs'.length + 2 ≤ n + 1 := by simpa using hlen
              simp only [List.length_cons] at h1 ⊢
              omega
            have hrec := ih (e :: es) hlen'' (Or.inr ⟨e, es, rfl, he⟩)
            have hXne : rtrimWs (collapseRuns (e :: es)) ≠ [] := by
              rw [collapseRuns_cons_of_not es he]
              exact rtrimWs_ne_nil_of_head he
            rw [show (c :: ' ' :: collapseRuns (e :: es)) =
                [c, ' '] ++ collapseRuns (e :: es) from rfl,
              rtrimWs_append_of_ne_nil [c, ' '] hXne, hrec]
            have hTne : (splitWsRuns (e :: es)).filter (fun w => w ≠ []) ≠ [] := by
              rw [splitWsRuns_cons_of_not es he, List.filter_cons, if_pos (by simp)]
              simp
            rw [List.filter_cons, if_pos (by simp), joinSp_cons [c] hTne]
            rfl
        · have hd0 : isWs d = false := by simpa using hd
          have hlen' : (d :: cs').length ≤ n := by
            have : (d :: cs').length + 1 ≤ n + 1 := by simpa using hlen
            omega
          have hrec := ih (d :: cs') hlen' (Or.inr ⟨d, cs', rfl, hd0⟩)
          have hXne : rtrimWs (collapseRuns (d :: cs')) ≠ [] := by
            rw [collapseRuns_cons_of_not cs' hd0]
            exact rtrimWs_ne_nil_of_head hd0
          rw [show (c :: collapseRuns (d :: cs')) = [c] ++ collapseRuns (d :: cs') from rfl,
            rtrimWs_append_of_ne_nil [c] hXne, hrec]
          rw [splitWsRuns_cons_of_not cs' hd0]
          simp only [List.headI, List.tail]
          rw [List.filter_cons, if_pos (by simp), List.filter_cons, if_pos (by simp),
            joinSp_cons_general, joinSp_cons_general]
          rfl

/-- The normalization `normalizeWs` is the single-space join of the non-empty
whitespace-delimited tokens. -/
theorem normalizeWs_eq_joinSp_wsTokens (s : JStr) :
    normalizeWs s = joinSp (wsTokens s) := by
  have key : ∀ s₀ : JStr, (s₀ = [] ∨ ∃ c cs, s₀ = c :: cs ∧ isWs c = false) →
      rtrimWs (collapseRuns s₀) =
        joinSp ((splitWsRuns s₀).filter (fun w => w ≠ [])) :=
    fun s₀ h => rtrimWs_collapseRuns s₀.length s₀ (Nat.le_refl _) h
  have hdw : ∀ t : JStr, t.dropWhile isWs = [] ∨
      ∃ c cs, t.dropWhile isWs = c :: cs ∧ isWs c = false := by
    intro t
    rcases h : t.dropWhile isWs with _ | ⟨c, cs⟩
    · exact Or.inl rfl
    · exact Or.inr ⟨c, cs, rfl, head_dropWhile_not h⟩
  rw [normalizeWs, collapseWs_eq_runs, wsTokens, splitWs_eq_runs, trim]
  cases s with
  | nil =>
    rw [collapseRuns_nil, splitWsRuns_nil]
    simp [rtrimWs, joinSp]
  | cons c cs =>
    by_cases hc : isWs c
    · rw [collapseRuns_cons_of_ws cs hc, splitWsRuns_cons_of_ws cs hc,
        List.filter_cons, if_neg (by simp)]
      have hstep : (' ' :: collapseRuns (cs.dropWhile isWs)).dropWhile isWs =
          (collapseRuns (cs.dropWhile isWs)).dropWhile isWs := by
        exact List.dropWhile_cons_of_pos (by simp [isWs])
      rw [hstep]
      have hself : (collapseRuns (cs.dropWhile isWs)).dropWhile isWs =
          collapseRuns (cs.dropWhile isWs) := by
        rcases hdw cs with h | ⟨e, es, he, hews⟩
        · rw [h, collapseRuns_nil]
          rfl
        · rw [he, collapseRuns_cons_of_not es hews]
          exact List.dropWhile_cons_of_neg (by simp [hews])
      rw [hself]
      exact key (cs.dropWhile isWs) (hdw cs)
    · have hc0 : isWs c = false := by simpa using hc
      have hself : (collapseRuns (c :: cs)).dropWhile isWs = collapseRuns (c :: cs) := by
        rw [collapseRuns_cons_of_not cs hc0]
        exact List.dropWhile_cons_of_neg (by simp [hc0])
      rw [hself]
      exact key (c :: cs) (Or.inr ⟨c, cs, rfl, hc0⟩)

/-! ## The word loop reconstructs the joined tokens -/

theorem chunkLoop_nil_eq (maxLength : Nat) (cc : JStr) :
    chunkLoop maxLength [] cc = if cc ≠ [] then [trim cc] else [] := rfl

theorem chunkLoop_cons_eq (maxLength : Nat) (w : JStr) (ws : List JStr) (cc : JStr) :
    chunkLoop maxLength (w :: ws) cc =
      if maxLength < (cc ++ ' ' :: w).length ∧ cc ≠ [] then
        trim cc :: chunkLoop maxLength ws w
      else chunkLoop maxLength ws (if cc ≠ [] then cc ++ ' ' :: w else w) := rfl

theorem chunkLoop_joinSp (maxLength : Nat) :
    ∀ (ws : List JStr) (cc : JStr) (g : List JStr),
      (∀ w ∈ ws, ∀ c ∈ w, isWs c = false) →
      ((cc = [] ∧ g = [] ∧ StartOK ws) ∨
        (GoodWords g ∧ g ≠ [] ∧ cc = joinSp g ∧ MidOK ws)) →
      joinSp (chunkLoop maxLength ws cc) =
        joinSp (g ++ ws.filter (fun w => w ≠ [])) := by
  intro ws
  induction ws with
  | nil =>
    intro cc g hws hshape
    rcases hshape with ⟨hcc, hg, -⟩ | ⟨hgood, hgne, hcc, -⟩
    · subst hcc; subst hg
      simp [chunkLoop, joinSp]
    · have hccne : cc ≠ [] := by
        rw [hcc]
        exact joinSp_ne_nil hgne fun v hv => (hgood v hv).1
      rw [chunkLoop_nil_eq, if_pos hccne, List.filter_nil, List.append_nil, hcc,
        trim_joinSp hgne hgood]
      rfl
  | cons w ws ih =>
    intro cc g hws hshape
    have hwf : ∀ c ∈ w, isWs c = false := hws w (List.mem_cons_self w ws)
    have hws' : ∀ v ∈ ws, ∀ c ∈ v, isWs c = false :=
      fun v hv => hws v (List.mem_cons_of_mem w hv)
    rcases hshape with ⟨hcc, hg, hstart⟩ | ⟨hgood, hgne, hcc, hmid⟩
    · subst hcc; subst hg
      rw [chunkLoop_cons_eq, if_neg (by simp), if_neg (by simp)]
      by_cases hw : w = []
      · subst hw
        rw [ih [] [] hws' (Or.inl ⟨rfl, rfl, startOK_tail_of_nil_head hstart⟩)]
        rw [List.filter_cons]
        simp
      · have hmidws : MidOK ws := midOK_of_startOK_cons hstart
        have hwgood : GoodWords [w] := by
          intro v hv
          simp only [List.mem_singleton] at hv
          subst hv
          exact ⟨hw, hwf⟩
        rw [ih w [w] hws' (Or.inr ⟨hwgood, by simp, rfl, hmidws⟩)]
        rw [List.filter_cons, if_pos (by simp [hw])]
        simp
    · have hccne : cc ≠ [] := by
        rw [hcc]
        exact joinSp_ne_nil hgne fun v hv => (hgood v hv).1
      by_cases hw : w = []
      · subst hw
        have hwsnil : ws = [] := midOK_cons_nil_head hmid
        subst hwsnil
        have hfil : ([] :: ([] : List JStr)).filter (fun v => v ≠ []) = [] := by simp
        by_cases hcond : maxLength < (cc ++ ' ' :: ([] : JStr)).length ∧ cc ≠ []
        · rw [show chunkLoop maxLength ([] :: []) cc = [trim cc] from by
            rw [chunkLoop_cons_eq, if_pos hcond, chunkLoop_nil_eq, if_neg (by simp)]]
          rw [hfil, List.append_nil, hcc, trim_joinSp hgne hgood]
          rfl
        · rw [show chunkLoop maxLength ([] :: []) cc = [trim (cc ++ ' ' :: [])] from by
            rw [chunkLoop_cons_eq, if_neg hcond, if_pos hccne, chunkLoop_nil_eq,
              if_pos (by simp)]]
          rw [hfil, List.append_nil, hcc]
          rw [show joinSp g ++ ' ' :: ([] : JStr) = joinSp g ++ [' '] from rfl]
          rw [trim_joinSp_space hgne hgood]
          rfl
      · have hmidws : MidOK ws := midOK_of_startOK_cons (Or.inl hmid)
        have hwgood : GoodWords [w] := by
          intro v hv
          simp only [List.mem_singleton] at hv
          subst hv
          exact ⟨hw, hwf⟩
        have hwInv : w = [] ∨ ∃ c ∈ w, isWs c = false := by
          cases w with
          | nil => exact Or.inl rfl
          | cons d ds =>
            exact Or.inr ⟨d, List.mem_cons_self d ds, hwf d (List.mem_cons_self d ds)⟩
        have hfil : (w :: ws).filter (fun v => v ≠ []) =
            w :: ws.filter (fun v => v ≠ []) := by
          rw [List.filter_cons, if_pos (by simp [hw])]
        by_cases hcond : maxLength < (cc ++ ' ' :: w).length ∧ cc ≠ []
        · rw [show chunkLoop maxLength (w :: ws) cc =
              trim cc :: chunkLoop maxLength ws w from by
            rw [chunkLoop_cons_eq, if_pos hcond]]
          have hrec := ih w [w] hws' (Or.inr ⟨hwgood, by simp, rfl, hmidws⟩)
          have hLne : chunkLoop maxLength ws w ≠ [] := by
            intro h0
            rw [h0] at hrec
            refine joinSp_ne_nil (l := [w] ++ ws.filter fun v => v ≠ [])
              (by simp) ?_ hrec.symm
            intro v hv
            rcases List.mem_append.mp hv with h' | h'
            · simp only [List.mem_singleton] at h'
              exact h' ▸ hw
            · simpa using List.of_mem_filter h'
          rw [hfil, joinSp_cons (trim cc) hLne, hrec, hcc, trim_joinSp hgne hgood,
            ← joinSp_append hgne (by simp : [w] ++ (ws.filter fun v => v ≠ []) ≠ [])]
          rfl
        · rw [show chunkLoop maxLength (w :: ws) cc =
              chunkLoop maxLength ws (cc ++ ' ' :: w) from by
            rw [chunkLoop_cons_eq, if_neg hcond, if_pos hccne]]
          have hgwgood : GoodWords (g ++ [w]) := by
            intro v hv
            rcases List.mem_append.mp hv with h' | h'
            · exact hgood v h'
            · exact hwgood v h'
          have hcc' : cc ++ ' ' :: w = joinSp (g ++ [w]) := by
            rw [joinSp_append hgne (by simp), hcc]
            rfl
          rw [ih (cc ++ ' ' :: w) (g ++ [w]) hws'
            (Or.inr ⟨hgwgood, by simp, hcc', hmidws⟩), hfil, List.append_assoc]
          rfl

/-! ## C6: joining the chunks reconstructs the normalized text -/

/-- C6 (amended): for texts longer than `maxLength`, joining the chunks
with single spaces yields exactly the whitespace normalization of the
input; for texts within `maxLength` the single returned chunk is the text
itself, unchanged (so the join differs from the normalization exactly by
the text's own whitespace irregularities). -/
theorem chunk_join_normalize (s : JStr) (maxLength : Nat) :
    (maxLength < s.length →
      joinSp (splitTextIntoChunks s maxLength) = normalizeWs s) ∧
    (s.length ≤ maxLength → joinSp (splitTextIntoChunks s maxLength) = s) := by
  constructor
  · intro h
    rw [splitTextIntoChunks_eq_chunkLoop s maxLength h,
      normalizeWs_eq_joinSp_wsTokens, wsTokens]
    have hmain := chunkLoop_joinSp maxLength (splitWs s) [] []
      (fun w hw c hc => (mem_splitWs hw c hc).2)
      (Or.inl ⟨rfl, rfl, startOK_splitWs s⟩)
    simpa using hmain
  · intro h
    simp only [splitTextIntoChunks, if_pos h]
    rfl

/-- C6 counterexample: for a short text ending in whitespace the chunker
returns it unchanged, so the single-space join does not equal the
whitespace normalization of the input. -/
theorem chunk_join_normalize_cex :
    joinSp (splitTextIntoChunks "a ".toList 200) ≠ normalizeWs "a ".toList := by
  decide

theorem chunk_join_normalize_witness :
    (joinSp (splitTextIntoChunks " aa  bb c ".toList 5) =
      normalizeWs " aa  bb c ".toList) ∧
    joinSp (splitTextIntoChunks "ab".toList 200) = "ab".toList :=
  ⟨(chunk_join_normalize " aa  bb c ".toList 5).1 (by decide),
   (chunk_join_normalize "ab".toList 200).2 (by decide)⟩

/-! ## The playback model: basic lemmas -/

theorem rescanHighlights_length (hl : List Bool) (s l : Nat) :
    (rescanHighlights hl s l).length = hl.length := by
  simp [rescanHighlights]

theorem rescanHighlights_get (hl : List Bool) (s l idx : Nat)
    (h : idx < (rescanHighlights hl s l).length) :
    (rescanHighlights hl s l).get ⟨idx, h⟩ = decide (s ≤ idx ∧ idx < s + l) := by
  rw [List.get_eq_getElem]
  simp [rescanHighlights, List.getElem_mapIdx]

theorem rescanHighlights_rescan (hl : List Bool) (s l s' l' : Nat) :
    rescanHighlights (rescanHighlights hl s l) s' l' = rescanHighlights hl s' l' := by
  apply List.ext_getElem
  · simp [rescanHighlights_length]
  · intro i h1 h2
    simp [rescanHighlights, List.getElem_mapIdx]

theorem rescanHighlights_map_false (hl : List Bool) (s l : Nat) :
    (rescanHighlights hl s l).map (fun _ => false) = hl.map fun _ => false := by
  rw [List.map_const', List.map_const', rescanHighlights_length]

theorem playFrom_nil (thai : JStr) (chunks : List JStr) (outcomes : Nat → ChunkOutcome)
    (k : Nat) (hl : List Bool) :
    playFrom thai chunks outcomes [] k hl = ([], hl.map fun _ => false) := rfl

theorem playFrom_cons_ok {outcomes : Nat → ChunkOutcome} {k : Nat}
    (h : outcomes k = .ok) (thai : JStr) (chunks : List JStr) (chunk : JStr)
    (rest : List JStr) (hl : List Bool) :
    playFrom thai chunks outcomes (chunk :: rest) k hl =
      (SpeakEvent.synthRequest chunk ::
        SpeakEvent.setHighlights (startSum chunks k) (wordCount chunk)
          (rescanHighlights hl (startSum chunks k) (wordCount chunk)) ::
        (playFrom thai chunks outcomes rest (k + 1)
          (rescanHighlights hl (startSum chunks k) (wordCount chunk))).1,
       (playFrom thai chunks outcomes rest (k + 1)
          (rescanHighlights hl (startSum chunks k) (wordCount chunk))).2) := by
  simp only [playFrom, h]

theorem playFrom_cons_errAfter {outcomes : Nat → ChunkOutcome} {k : Nat}
    (h : outcomes k = .errAfterPlay) (thai : JStr) (chunks : List JStr) (chunk : JStr)
    (rest : List JStr) (hl : List Bool) :
    playFrom thai chunks outcomes (chunk :: rest) k hl =
      ([SpeakEvent.synthRequest chunk,
        SpeakEvent.setHighlights (startSum chunks k) (wordCount chunk)
          (rescanHighlights hl (startSum chunks k) (wordCount chunk)),
        SpeakEvent.fallbackSpeak thai],
       rescanHighlights hl (startSum chunks k) (wordCount chunk)) := by
  simp only [playFrom, h]

theorem playFrom_cons_errBefore {outcomes : Nat → ChunkOutcome} {k : Nat}
    (h : outcomes k = .errBeforePlay) (thai : JStr) (chunks : List JStr) (chunk : JStr)
    (rest : List JStr) (hl : List Bool) :
    playFrom thai chunks outcomes (chunk :: rest) k hl =
      ([SpeakEvent.synthRequest chunk, SpeakEvent.fallbackSpeak thai], hl) := by
  simp only [playFrom, h]

/-- An all-successes run: the full trace (one synthesis request and one
highlight re-scan per chunk, in order) and the cleared final state. -/
theorem playFrom_ok (thai : JStr) (chunks : List JStr) (outcomes : Nat → ChunkOutcome)
    (hok : ∀ i, outcomes i = .ok) :
    ∀ (rest : List JStr) (k : Nat) (hl : List Bool),
      playFrom thai chunks outcomes rest k hl =
        ((rest.enumFrom k).flatMap fun p =>
          [SpeakEvent.synthRequest p.2,
           SpeakEvent.setHighlights (startSum chunks p.1) (wordCount p.2)
             (rescanHighlights hl (startSum chunks p.1) (wordCount p.2))],
         hl.map fun _ => false) := by
  intro rest
  induction rest with
  | nil =>
    intro k hl
    rw [playFrom_nil]
    simp [List.enumFrom]
  | cons chunk rest ih =>
    intro k hl
    rw [playFrom_cons_ok (hok k), ih (k + 1)
      (rescanHighlights hl (startSum chunks k) (wordCount chunk)),
      List.enumFrom_cons, List.flatMap_cons]
    simp only [rescanHighlights_rescan, rescanHighlights_map_false]
    rfl

/-- A run whose first failure is at offset `j` into `rest`: the trace is
the successful prefix followed by the failing chunk's events and a single
final fallback invocation carrying the full text; the final highlight
state is the one current at the moment of the failure (no clearing). -/
theorem playFrom_fail (thai : JStr) (chunks : List JStr) (outcomes : Nat → ChunkOutcome) :
    ∀ (j : Nat) (rest : List JStr) (k : Nat) (hl : List Bool),
      (∀ i, i < j → outcomes (k + i) = .ok) →
      outcomes (k + j) ≠ .ok →
      j < rest.length →
      ∃ pre : List SpeakEvent,
        (playFrom thai chunks outcomes rest k hl).1 =
          pre ++ [SpeakEvent.fallbackSpeak thai] ∧
        (∀ e ∈ pre, isFallbackEvent e = false) ∧
        pre.filter isSynthEvent = (rest.take (j + 1)).map SpeakEvent.synthRequest ∧
        (playFrom thai chunks outcomes rest k hl).2 =
          (if outcomes (k + j) = .errAfterPlay then
            rescanHighlights hl (startSum chunks (k + j)) (wordCount (rest.getD j []))
          else if j = 0 then hl
          else rescanHighlights hl (startSum chunks (k + j - 1))
            (wordCount (rest.getD (j - 1) []))) := by
  intro j
  induction j with
  | zero =>
    intro rest k hl hok hfail hlt
    cases rest with
    | nil => simp at hlt
    | cons chunk rest =>
      simp only [Nat.add_zero] at hfail ⊢
      rcases hout : outcomes k with _ | _ | _
      · exact absurd hout hfail
      · rw [playFrom_cons_errAfter hout thai chunks chunk rest hl]
        refine ⟨[SpeakEvent.synthRequest chunk,
          SpeakEvent.setHighlights (startSum chunks k) (wordCount chunk)
            (rescanHighlights hl (startSum chunks k) (wordCount chunk))], rfl, ?_, ?_, ?_⟩
        · intro e he
          simp only [List.mem_cons, List.not_mem_nil, or_false] at he
          rcases he with rfl | rfl <;> rfl
        · rfl
        · rw [if_pos rfl]
          rfl
      · rw [playFrom_cons_errBefore hout thai chunks chunk rest hl]
        refine ⟨[SpeakEvent.synthRequest chunk], rfl, ?_, rfl, ?_⟩
        · intro e he
          simp only [List.mem_cons, List.not_mem_nil, or_false] at he
          rcases he with rfl
          rfl
        · simp
  | succ j ih =>
    intro rest k hl hok hfail hlt
    cases rest with
    | nil => simp at hlt
    | cons chunk rest =>
      have hk : outcomes k = .ok := by
        have := hok 0 (Nat.succ_pos j)
        simpa using this
      rw [playFrom_cons_ok hk thai chunks chunk rest hl]
      have hok' : ∀ i, i < j →
          outcomes (k + 1 + i) = .ok := by
        intro i hi
        have := hok (i + 1) (Nat.succ_lt_succ hi)
        rwa [show k + (i + 1) = k + 1 + i from by omega] at this
      have hfail' : outcomes (k + 1 + j) ≠ .ok := by
        rwa [show k + 1 + j = k + (j + 1) from by omega]
      obtain ⟨pre, h1, h2, h3, h4⟩ := ih rest (k + 1)
        (rescanHighlights hl (startSum chunks k) (wordCount chunk)) hok' hfail'
        (by simpa using hlt)
      refine ⟨SpeakEvent.synthRequest chunk ::
        SpeakEvent.setHighlights (startSum chunks k) (wordCount chunk)
          (rescanHighlights hl (startSum chunks k) (wordCount chunk)) :: pre,
        ?_, ?_, ?_, ?_⟩
      · show SpeakEvent.synthRequest chunk :: SpeakEvent.setHighlights _ _ _ ::
          (playFrom thai chunks outcomes rest (k + 1)
            (rescanHighlights hl (startSum chunks k) (wordCount chunk))).1 = _
        rw [h1]
        rfl
      · intro e he
        simp only [List.mem_cons] at he
        rcases he with rfl | rfl | he
        · rfl
        · rfl
        · exact h2 e he
      · show List.filter isSynthEvent (SpeakEvent.synthRequest chunk ::
          SpeakEvent.setHighlights _ _ _ :: pre) = _
        simp [isSynthEvent, h3, List.take_succ_cons]
      · show (playFrom thai chunks outcomes rest (k + 1)
            (rescanHighlights hl (startSum chunks k) (wordCount chunk))).2 = _
        rw [h4, show k + (j + 1) = k + 1 + j from by omega]
        by_cases hA : outcomes (k + 1 + j) = .errAfterPlay
        · rw [if_pos hA, if_pos hA, rescanHighlights_rescan, List.getD_cons_succ]
        · rw [if_neg hA, if_neg hA, if_neg (Nat.succ_ne_zero j)]
          by_cases hj : j = 0
          · subst hj
            rw [if_pos rfl]
            simp only [Nat.add_zero, Nat.add_sub_cancel]
            rfl
          · rw [if_neg hj, rescanHighlights_rescan,
              show k + 1 + j - 1 = k + (j + 1) - 1 from by omega]
            obtain ⟨j', rfl⟩ := Nat.exists_eq_succ_of_ne_zero hj
            rw [show j' + 1 - 1 = j' from rfl, show j' + 1 + 1 - 1 = j' + 1 from rfl,
              List.getD_cons_succ]

/-! ## C8: degenerate input resolves immediately -/

/-- C8: empty or untranslatable text resolves immediately, with no
synthesis request, no playback event of any kind, and the highlight
state unchanged. -/
theorem speak_degenerate (currentThai : JStr) (hl : List Bool)
    (outcomes : Nat → ChunkOutcome)
    (h : currentThai = [] ∨ currentThai = translationFailed) :
    speakThaiWithHighlighting currentThai hl outcomes = ([], hl) := by
  simp only [speakThaiWithHighlighting, if_pos h]

theorem speak_degenerate_witness :
    speakThaiWithHighlighting [] [true, false] (fun _ => ChunkOutcome.ok) =
      ([], [true, false]) :=
  speak_degenerate [] [true, false] (fun _ => ChunkOutcome.ok) (Or.inl rfl)

/-! ## C1: chunk failure aborts the sequence, full-text fallback -/

/-- C1: if the first playback failure occurs at chunk `j` of the
sequence, the fallback speaker is invoked exactly once, on the complete
original translated text, as the final event of the run; the synthesis
requests issued are exactly those for chunks `0..j`, so the remaining
chunks are abandoned. -/
theorem speak_chunk_failure (thai : JStr) (hl : List Bool)
    (outcomes : Nat → ChunkOutcome) (j : Nat)
    (hne : thai ≠ []) (hnf : thai ≠ translationFailed)
    (hok : ∀ i, i < j → outcomes i = .ok) (hfail : outcomes j ≠ .ok)
    (hj : j < (splitTextIntoChunks thai 200).length) :
    ∃ pre : List SpeakEvent,
      (speakThaiWithHighlighting thai hl outcomes).1 =
        pre ++ [SpeakEvent.fallbackSpeak thai] ∧
      (∀ e ∈ pre, isFallbackEvent e = false) ∧
      pre.filter isSynthEvent =
        ((splitTextIntoChunks thai 200).take (j + 1)).map SpeakEvent.synthRequest := by
  have hcond : ¬ (thai = [] ∨ thai = translationFailed) := by
    rintro (h | h)
    exacts [hne h, hnf h]
  obtain ⟨pre, h1, h2, h3, -⟩ := playFrom_fail thai (splitTextIntoChunks thai 200)
    outcomes j (splitTextIntoChunks thai 200) 0 hl
    (fun i hi => by simpa using hok i hi) (by simpa using hfail) hj
  refine ⟨pre, ?_, h2, h3⟩
  simp only [speakThaiWithHighlighting, if_neg hcond]
  exact h1

theorem speak_chunk_failure_witness :
    ∃ pre : List SpeakEvent,
      (speakThaiWithHighlighting "ab".toList [false]
        (fun _ => ChunkOutcome.errAfterPlay)).1 =
        pre ++ [SpeakEvent.fallbackSpeak "ab".toList] ∧
      (∀ e ∈ pre, isFallbackEvent e = false) ∧
      pre.filter isSynthEvent =
        ((splitTextIntoChunks "ab".toList 200).take 1).map SpeakEvent.synthRequest :=
  speak_chunk_failure "ab".toList [false] (fun _ => ChunkOutcome.errAfterPlay) 0
    (by decide) (by decide) (fun i hi => absurd hi (Nat.not_lt_zero i))
    (by decide) (by decide)

/-! ## C2: highlight clearing at the end of the sequence -/

/-- C2 (amended): when the sequence ends by exhausting all chunks, every
word span's highlight is removed before the completion signal resolves;
when it ends through the fallback after a chunk failure, the highlight
state is left exactly as it was at the moment of the failure — it is not
cleared. -/
theorem speak_final_highlights (thai : JStr) (hl : List Bool)
    (outcomes : Nat → ChunkOutcome)
    (hne : thai ≠ []) (hnf : thai ≠ translationFailed) :
    ((∀ i, outcomes i = .ok) →
      (speakThaiWithHighlighting thai hl outcomes).2 = hl.map fun _ => false) ∧
    (∀ j, (∀ i, i < j → outcomes i = .ok) → outcomes j ≠ .ok →
      j < (splitTextIntoChunks thai 200).length →
      (speakThaiWithHighlighting thai hl outcomes).2 =
        (if outcomes j = .errAfterPlay then
          rescanHighlights hl (startSum (splitTextIntoChunks thai 200) j)
            (wordCount ((splitTextIntoChunks thai 200).getD j []))
        else if j = 0 then hl
        else rescanHighlights hl (startSum (splitTextIntoChunks thai 200) (j - 1))
          (wordCount ((splitTextIntoChunks thai 200).getD (j - 1) [])))) := by
  have hcond : ¬ (thai = [] ∨ thai = translationFailed) := by
    rintro (h | h)
    exacts [hne h, hnf h]
  constructor
  · intro hok
    simp only [speakThaiWithHighlighting, if_neg hcond]
    rw [playFrom_ok thai (splitTextIntoChunks thai 200) outcomes hok
      (splitTextIntoChunks thai 200) 0 hl]
  · intro j hok hfail hj
    obtain ⟨-, -, -, -, h4⟩ := playFrom_fail thai (splitTextIntoChunks thai 200)
      outcomes j (splitTextIntoChunks thai 200) 0 hl
      (fun i hi => by simpa using hok i hi) (by simpa using hfail) hj
    simp only [Nat.zero_add] at h4
    simp only [speakThaiWithHighlighting, if_neg hcond]
    exact h4

/-- C2 counterexample: a run in which chunk playback starts (highlighting
the chunk's words) and then errors ends, through the fallback, with a
word span still highlighted: not every span has its highlight removed. -/
theorem speak_highlight_not_cleared_cex :
    ¬ ∀ b ∈ (speakThaiWithHighlighting "ab".toList [false]
        (fun _ => ChunkOutcome.errAfterPlay)).2, b = false := by
  decide

theorem speak_final_highlights_witness :
    (speakThaiWithHighlighting "ab".toList [false] (fun _ => ChunkOutcome.ok)).2 =
      [false] ∧
    (speakThaiWithHighlighting "ab".toList [false]
      (fun _ => ChunkOutcome.errAfterPlay)).2 = [true] := by
  constructor
  · have h := (speak_final_highlights "ab".toList [false] (fun _ => ChunkOutcome.ok)
      (by decide) (by decide)).1 (fun i => rfl)
    rw [h]
    decide
  · have h := (speak_final_highlights "ab".toList [false]
      (fun _ => ChunkOutcome.errAfterPlay) (by decide) (by decide)).2 0
      (fun i hi => absurd hi (Nat.not_lt_zero i)) (by decide) (by decide)
    rw [h]
    decide

/-! ## C3: per-chunk word ranges and the highlight re-scan -/

/-- C3: in a run where every chunk plays successfully, the trace holds,
for each chunk (position `p.1`, text `p.2`), one synthesis request and
one highlight re-scan whose start index is the sum of the
whitespace-token counts of all preceding chunks (`startSum`) and whose
length is the chunk's own token count; and every highlight re-scan in the
trace sets exactly the spans whose positional index lies in
`[start, start + len)` to highlighted and every other span to
non-highlighted. -/
theorem speak_ok_highlight_ranges (thai : JStr) (hl : List Bool)
    (outcomes : Nat → ChunkOutcome)
    (hne : thai ≠ []) (hnf : thai ≠ translationFailed)
    (hok : ∀ i, outcomes i = .ok) :
    ((speakThaiWithHighlighting thai hl outcomes).1 =
      ((splitTextIntoChunks thai 200).enumFrom 0).flatMap fun p =>
        [SpeakEvent.synthRequest p.2,
         SpeakEvent.setHighlights (startSum (splitTextIntoChunks thai 200) p.1)
           (wordCount p.2)
           (rescanHighlights hl (startSum (splitTextIntoChunks thai 200) p.1)
             (wordCount p.2))]) ∧
    (∀ start len hlA, SpeakEvent.setHighlights start len hlA ∈
        (speakThaiWithHighlighting thai hl outcomes).1 →
      ∀ idx (hidx : idx < hlA.length),
        (hlA.get ⟨idx, hidx⟩ = true ↔ (start ≤ idx ∧ idx < start + len))) := by
  have hcond : ¬ (thai = [] ∨ thai = translationFailed) := by
    rintro (h | h)
    exacts [hne h, hnf h]
  have htrace : (speakThaiWithHighlighting thai hl outcomes).1 =
      ((splitTextIntoChunks thai 200).enumFrom 0).flatMap fun p =>
        [SpeakEvent.synthRequest p.2,
         SpeakEvent.setHighlights (startSum (splitTextIntoChunks thai 200) p.1)
           (wordCount p.2)
           (rescanHighlights hl (startSum (splitTextIntoChunks thai 200) p.1)
             (wordCount p.2))] := by
    simp only [speakThaiWithHighlighting, if_neg hcond]
    rw [playFrom_ok thai (splitTextIntoChunks thai 200) outcomes hok
      (splitTextIntoChunks thai 200) 0 hl]
  refine ⟨htrace, ?_⟩
  intro start len hlA hmem idx hidx
  rw [htrace] at hmem
  rw [List.mem_flatMap] at hmem
  obtain ⟨p, -, hp⟩ := hmem
  simp only [List.mem_cons, List.not_mem_nil, or_false] at hp
  rcases hp with hp | hp
  · cases hp
  · injection hp with h1 h2 h3
    subst h1
    subst h2
    subst h3
    rw [rescanHighlights_get]
    exact decide_eq_true_iff

theorem speak_ok_highlight_ranges_witness :
    (speakThaiWithHighlighting "ab cd".toList [false, false]
        (fun _ => ChunkOutcome.ok)).1 =
      [SpeakEvent.synthRequest "ab cd".toList,
       SpeakEvent.setHighlights 0 2 [true, true]] ∧
    ([true, true].get ⟨1, by decide⟩ = true ↔ (0 ≤ 1 ∧ 1 < 0 + 2)) := by
  constructor
  · have h := (speak_ok_highlight_ranges "ab cd".toList [false, false]
      (fun _ => ChunkOutcome.ok) (by decide) (by decide) (fun i => rfl)).1
    rw [h]
    decide
  · exact (speak_ok_highlight_ranges "ab cd".toList [false, false]
      (fun _ => ChunkOutcome.ok) (by decide) (by decide) (fun i => rfl)).2
      0 2 [true, true] (by decide) 1 (by decide)

/-! ## C9: the playback cycle's three sequential steps -/

theorem playFrom_synth_mem (thai : JStr) (chunks : List JStr)
    (outcomes : Nat → ChunkOutcome) :
    ∀ (rest : List JStr) (k : Nat) (hl : List Bool) (c : JStr),
      SpeakEvent.synthRequest c ∈ (playFrom thai chunks outcomes rest k hl).1 →
      c ∈ rest := by
  intro rest
  induction rest with
  | nil =>
    intro k hl c hc
    rw [playFrom_nil] at hc
    simp at hc
  | cons chunk rest ih =>
    intro k hl c hc
    rcases hout : outcomes k with _ | _ | _
    · rw [playFrom_cons_ok hout thai chunks chunk rest hl] at hc
      rcases List.mem_cons.mp hc with h | h
      · injection h with h'
        exact h' ▸ List.mem_cons_self chunk rest
      · rcases List.mem_cons.mp h with h' | h'
        · cases h'
        · exact List.mem_cons_of_mem chunk (ih (k + 1) _ c h')
    · rw [playFrom_cons_errAfter hout thai chunks chunk rest hl] at hc
      simp only [List.mem_cons, List.not_mem_nil, or_false] at hc
      rcases hc with h | h | h
      · injection h with h'
        exact h' ▸ List.mem_cons_self chunk rest
      · cases h
      · cases h
    · rw [playFrom_cons_errBefore hout thai chunks chunk rest hl] at hc
      simp only [List.mem_cons, List.not_mem_nil, or_false] at hc
      rcases hc with h | h
      · injection h with h'
        exact h' ▸ List.mem_cons_self chunk rest
      · cases h

/-- C9: a playback cycle is exactly: play the recorded audio, then a
fixed 500 ms delay, then the highlight sequence — in that order; and
every synthesis request of the highlight sequence is for a chunk of
`splitTextIntoChunks(thaiText, 200)`. -/
theorem playbackCycle_steps (audioBlob : Nat) (currentThai : JStr) (hl : List Bool)
    (outcomes : Nat → ChunkOutcome) :
    ((playbackCycle audioBlob currentThai hl outcomes).1 =
      CycleEvent.playOriginalAudio audioBlob :: CycleEvent.delay 500 ::
        (speakThaiWithHighlighting currentThai hl outcomes).1.map CycleEvent.speak) ∧
    (∀ c : JStr, CycleEvent.speak (SpeakEvent.synthRequest c) ∈
        (playbackCycle audioBlob currentThai hl outcomes).1 →
      c ∈ splitTextIntoChunks currentThai 200) := by
  constructor
  · rfl
  · intro c hc
    have hmem : SpeakEvent.synthRequest c ∈
        (speakThaiWithHighlighting currentThai hl outcomes).1 := by
      simp only [playbackCycle, List.mem_cons] at hc
      rcases hc with h | h | h
      · cases h
      · cases h
      · obtain ⟨e, he, heq⟩ := List.mem_map.mp h
        injection heq with h'
        exact h' ▸ he
    by_cases hdeg : currentThai = [] ∨ currentThai = translationFailed
    · simp only [speakThaiWithHighlighting, if_pos hdeg] at hmem
      simp at hmem
    · simp only [speakThaiWithHighlighting, if_neg hdeg] at hmem
      exact playFrom_synth_mem currentThai (splitTextIntoChunks currentThai 200)
        outcomes (splitTextIntoChunks currentThai 200) 0 hl c hmem

theorem playbackCycle_steps_witness :
    (playbackCycle 7 "ab".toList [false] (fun _ => ChunkOutcome.ok)).1 =
      [CycleEvent.playOriginalAudio 7, CycleEvent.delay 500,
       CycleEvent.speak (SpeakEvent.synthRequest "ab".toList),
       CycleEvent.speak (SpeakEvent.setHighlights 0 1 [true])] ∧
    "ab".toList ∈ splitTextIntoChunks "ab".toList 200 := by
  constructor
  · have h := (playbackCycle_steps 7 "ab".toList [false] (fun _ => ChunkOutcome.ok)).1
    rw [h]
    decide
  · exact (playbackCycle_steps 7 "ab".toList [false] (fun _ => ChunkOutcome.ok)).2
      "ab".toList (by decide)

end Lang
